import Mathlib

/-!
Shallow embedding of `src/excel_merger_app.py` (ExcelMerger).

The embedding covers the core logic identified by the spec: the
`NAME_RE` filename grammar and `parse_from_name`, `normalize_position`,
`natural_key` ordering, and the `build_summary` aggregation fold.
Python `str` values are modelled as Lean `String` / `List Char`;
character classes (`\d`, `str.lower`, `str.strip`) are modelled over
ASCII, which covers every input the program's grammar can accept.
File-system discovery and CSV value reading are external I/O
(spec section 6); a merge unit is therefore modelled as a folder name
together with its ordered CSV files, each paired with the optional
numeric value the external reader would produce for it.
-/

namespace ExcelMerger

/-- ASCII model of the whitespace characters stripped by Python's
`str.strip()` with no arguments. -/
def pyIsSpace (c : Char) : Bool :=
  decide (c = ' ' ∨ c = '\t' ∨ c = '\n' ∨ c = '\r' ∨ c = '\x0b' ∨ c = '\x0c')

/-- Python `s.strip()`: drop leading and trailing whitespace. -/
def pyStrip (cs : List Char) : List Char :=
  ((cs.dropWhile pyIsSpace).reverse.dropWhile pyIsSpace).reverse

/-- Python `s.lower()` (ASCII model, via `Char.toLower`). -/
def toLowerStr (cs : List Char) : List Char :=
  cs.map Char.toLower

/-- Python `s.replace(" ", "")`: remove every space character. -/
def removeSpaces (cs : List Char) : List Char :=
  cs.filter (fun c => !(decide (c = ' ')))

/-- Prepend a character to the first piece of a split result. -/
def consHead (c : Char) : List (List Char) → List (List Char)
  | [] => [[c]]
  | s :: ss => (c :: s) :: ss

/-- Python `s.split("+")`: a separator starts a new empty piece, any
other character extends the current first piece. -/
def splitPlus : List Char → List (List Char)
  | [] => [[]]
  | c :: rest =>
    if c = '+' then [] :: splitPlus rest else consHead c (splitPlus rest)

/-- Python `"+".join(parts)`. -/
def joinPlus : List (List Char) → List Char
  | [] => []
  | [s] => s
  | s :: ss => s ++ '+' :: joinPlus ss

/-- Python `parts.sort()` on strings: stable ascending sort under
code-point lexicographic order (the `List Char` linear order compares
`Char` by code point, matching Python string comparison). -/
def sortSegs (segs : List (List Char)) : List (List Char) :=
  List.insertionSort (fun a b => a ≤ b) segs

/-- The cleanup prefix of `normalize_position`:
`pos.strip().lower().replace(" ", "")`. -/
def normClean (cs : List Char) : List Char :=
  removeSpaces (toLowerStr (pyStrip cs))

/-- The split/sort/join phase of `normalize_position`: when the cleaned
tag contains a `+`, split on `+`, drop empty segments, sort, rejoin. -/
def normCore (p : List Char) : List Char :=
  if '+' ∈ p then
    joinPlus (sortSegs ((splitPlus p).filter (fun s => !(s.isEmpty))))
  else p

/-- `normalize_position` from the source (the `pos is None` guard falls
away because Lean strings are non-nullable; every call site in the
source passes a string). -/
def normalize_position (pos : String) : String :=
  String.mk (normCore (normClean pos.data))

/-! ## natural_key -/

/-- One entry of the Python `natural_key` list: an `int` for a digit
run, a lower-cased string for a non-digit piece. -/
inductive NatTok where
  | str : List Char → NatTok
  | num : Nat → NatTok
deriving DecidableEq

/-- Group a character list into maximal runs of digits / non-digits. -/
def groupRuns : List Char → List (List Char)
  | [] => []
  | c :: rest =>
    match groupRuns rest with
    | [] => [[c]]
    | [] :: gs => [c] :: [] :: gs
    | (d :: g) :: gs =>
      if c.isDigit = d.isDigit then (c :: d :: g) :: gs
      else [c] :: (d :: g) :: gs

/-- Whether a run consists of digits (runs are nonempty; `[]` is not a
digit run). -/
def isDigitRun (g : List Char) : Bool :=
  match g with
  | [] => false
  | c :: _ => c.isDigit

/-- Python `re.split(r"(\d+)", text)`: the maximal runs, with an empty
string added before a leading digit run and after a trailing one, so the
result always alternates non-digit, digit, non-digit, ... -/
def pySplitDigits (cs : List Char) : List (List Char) :=
  let rs := groupRuns cs
  let rs2 := match rs with
    | [] => [[]]
    | g :: _ => if isDigitRun g then [] :: rs else rs
  match rs2.getLast? with
  | some g => if isDigitRun g then rs2 ++ [[]] else rs2
  | none => rs2

/-- Numeric value of a digit run (Python `int(t)`). -/
def digitsVal (cs : List Char) : Nat :=
  cs.foldl (fun n c => 10 * n + (c.toNat - 48)) 0

/-- Python `t.isdigit()` (ASCII model). -/
def isAllDigits (cs : List Char) : Bool :=
  !cs.isEmpty && cs.all Char.isDigit

/-- `natural_key` from the source: split on digit runs, digit runs
become numbers, other pieces are lower-cased text. -/
def natural_key (text : String) : List NatTok :=
  (pySplitDigits text.data).map
    (fun t => if isAllDigits t then NatTok.num (digitsVal t)
              else NatTok.str (toLowerStr t))

/-- Code-point lexicographic strict order on character lists (Python
string `<`). -/
def lexLtChars : List Char → List Char → Bool
  | [], [] => false
  | [], _ :: _ => true
  | _ :: _, [] => false
  | a :: as, b :: bs =>
    if a.val < b.val then true
    else if b.val < a.val then false
    else lexLtChars as bs

/-- Python `<` on two `natural_key` entries. For values produced by
`natural_key`, entries compared at equal index always have the same
constructor (positions alternate text, number, text, ...); the two
mixed cases, on which Python would raise `TypeError`, are given a fixed
answer only to keep the function total. -/
def tokLt : NatTok → NatTok → Bool
  | NatTok.num a, NatTok.num b => decide (a < b)
  | NatTok.str a, NatTok.str b => lexLtChars a b
  | NatTok.num _, NatTok.str _ => true
  | NatTok.str _, NatTok.num _ => false

/-- Python `<` on whole key lists (list lexicographic order). -/
def keyLt : List NatTok → List NatTok → Bool
  | [], [] => false
  | [], _ :: _ => true
  | _ :: _, [] => false
  | a :: as, b :: bs =>
    if tokLt a b then true
    else if tokLt b a then false
    else keyLt as bs

/-- Non-strict key comparison, `a ≤ b` as `¬ b < a`. -/
def keyLe (a b : List NatTok) : Bool :=
  !(keyLt b a)

/-- Python `sort(key=natural_key)`: stable ascending sort by the
natural key (insertion sort is stable, like Python's sort). -/
def sortByNaturalKey (names : List String) : List String :=
  List.insertionSort
    (fun a b => keyLe (natural_key a) (natural_key b) = true) names

/-! ## NAME_RE and parse_from_name

`NAME_RE` is the anchored, case-insensitive, backtracking regex

  `^(?P<mouse>p\d+)-.*?(?:_(?P<view>\d{3,6}))?\((?P<kind>microglia|ribeyes)-(?P<pos>[^)]+)\)_(?P<tag>Detailed|Statistics)?(?:\.csv)?$`

matched with `re.match`. The functions below implement exactly its
backtracking search: `p\d+` is a maximal digit run followed by the
mandatory `-`; the lazy `.*?` is the outer scan (`scanBody`) growing one
non-newline character at a time; at each split point the optional view
group is tried first (6 digits down to 3), then skipped; the
alternations try their left branch first; `[^)]+` is the maximal
nonempty run of non-`)` characters; `$` accepts the end of the string or
a single trailing newline. -/

/-- Consume a literal pattern case-insensitively (`re.IGNORECASE`),
returning the remaining input. -/
def stripCI : List Char → List Char → Option (List Char)
  | [], cs => some cs
  | _ :: _, [] => none
  | p :: ps, c :: cs => if c.toLower = p.toLower then stripCI ps cs else none

/-- Python `$` (no MULTILINE): end of string, or just before one
trailing newline. -/
def endAnchor : List Char → Bool
  | [] => true
  | ['\n'] => true
  | _ => false

/-- `(?:\.csv)?$`: try consuming `.csv` first (greedy), else match the
end directly. -/
def matchCsvEnd (cs : List Char) : Bool :=
  (match stripCI (".csv".data) cs with
   | some r => endAnchor r
   | none => false) || endAnchor cs

/-- `_(?:Detailed|Statistics)?(?:\.csv)?$` after the closing paren: the
underscore is mandatory, the tag word optional. -/
def matchAfterRParen : List Char → Bool
  | '_' :: rest =>
    (match stripCI ("Detailed".data) rest with
     | some r => matchCsvEnd r
     | none => false) ||
    (match stripCI ("Statistics".data) rest with
     | some r => matchCsvEnd r
     | none => false) ||
    matchCsvEnd rest
  | _ => false

/-- One branch of the kind alternation: the literal kind word, `-`, the
`[^)]+` position capture, `)`, then the mandatory tail. Returns the
captured (kind text, position text). -/
def kindTry (pat : List Char) (rest : List Char) : Option (List Char × List Char) :=
  match stripCI pat rest with
  | none => none
  | some r1 =>
    match r1 with
    | [] => none
    | c :: r2 =>
      if c = '-' then
        if (r2.takeWhile (fun x => !(decide (x = ')')))).isEmpty then none
        else
          match r2.dropWhile (fun x => !(decide (x = ')'))) with
          | [] => none
          | d :: r3 =>
            if d = ')' then
              if matchAfterRParen r3 then
                some (rest.take pat.length,
                  r2.takeWhile (fun x => !(decide (x = ')'))))
              else none
            else none
      else none

/-- `\((?P<kind>microglia|ribeyes)-(?P<pos>[^)]+)\)_...`: the literal
`(` then the kind alternation, left branch first. -/
def matchGroup : List Char → Option (List Char × List Char)
  | [] => none
  | c :: rest =>
    if c = '(' then
      (kindTry ("microglia".data) rest).orElse
        (fun _ => kindTry ("ribeyes".data) rest)
    else none

/-- Consume exactly `n` digits (one backtracking step of `\d{3,6}`). -/
def exactDigits (n : Nat) (cs : List Char) : Option (List Char × List Char) :=
  let d := cs.take n
  if d.length = n ∧ d.all Char.isDigit = true then some (d, cs.drop n)
  else none

/-- The view group continued by the paren group, with the view capture
taking exactly `n` digits. -/
def tryViewNum (n : Nat) (cs : List Char) :
    Option (Option (List Char) × List Char × List Char) :=
  match exactDigits n cs with
  | some (d, r2) =>
    match matchGroup r2 with
    | some (k, p) => some (some d, k, p)
    | none => none
  | none => none

/-- Everything after `.*?` at one split point:
`(?:_(?P<view>\d{3,6}))?\(...`. The optional view group is tried first
(greedily, 6 digits down to 3), then the group is skipped. -/
def tryViews (r : List Char) :
    Option (Option (List Char) × List Char × List Char) :=
  (tryViewNum 6 r).orElse (fun _ =>
    (tryViewNum 5 r).orElse (fun _ =>
      (tryViewNum 4 r).orElse (fun _ => tryViewNum 3 r)))

/-- The view-group-present branch: cut at an `_` and read the view. -/
def tryAtView : List Char → Option (Option (List Char) × List Char × List Char)
  | [] => none
  | c :: r => if c = '_' then tryViews r else none

/-- The view-group-absent branch: the paren group directly here. -/
def groupToRes (cs : List Char) :
    Option (Option (List Char) × List Char × List Char) :=
  match matchGroup cs with
  | some (k, p) => some (none, k, p)
  | none => none

def tryAt (cs : List Char) : Option (Option (List Char) × List Char × List Char) :=
  (tryAtView cs).orElse (fun _ => groupToRes cs)

/-- The lazy `.*?` scan: try the continuation at the current position,
else consume one non-newline character and retry. -/
def scanBody : List Char → Option (Option (List Char) × List Char × List Char)
  | [] => tryAt []
  | c :: rest =>
    (tryAt (c :: rest)).orElse
      (fun _ => if c = '\n' then none else scanBody rest)

/-- `NAME_RE.match name`: raw captures (mouse, view?, kind, pos), in
original case. `p\d+` deterministically takes the maximal digit run
because the following mandatory character is `-`, never a digit. -/
def nameReMatch (s : String) :
    Option (List Char × Option (List Char) × List Char × List Char) :=
  match s.data with
  | [] => none
  | c :: rest =>
    if c.toLower = 'p' then
      if (rest.takeWhile Char.isDigit).isEmpty then none
      else
        match rest.dropWhile Char.isDigit with
        | [] => none
        | c2 :: body =>
          if c2 = '-' then
            match scanBody body with
            | some (v, k, p) => some (c :: rest.takeWhile Char.isDigit, v, k, p)
            | none => none
          else none
    else none

/-- Python `x or dflt` on an optional string: `None` and the empty
string both fall back to the default. -/
def pyOrStr (x : Option (List Char)) (dflt : String) : String :=
  match x with
  | some cs => if cs.isEmpty then dflt else String.mk cs
  | none => dflt

/-- `parse_from_name` from the source: `None` on no match, else
`(mouse.lower(), view or "/", normalize_position(pos or ""),
(kind or "").lower())`. -/
def parse_from_name (name : String) : Option (String × String × String × String) :=
  match nameReMatch name with
  | none => none
  | some (mouse, view, kind, pos) =>
    some (String.mk (toLowerStr mouse),
          pyOrStr view ("/"),
          normalize_position (pyOrStr (some pos) ("")),
          String.mk (toLowerStr (String.data (pyOrStr (some kind) ("")))))

/-! ## build_summary -/

/-- One output row of the summary `OrderedDict` (the dict the source
builds per key, with its three identity fields and the two marker value
fields plus the always-empty engulfment index). -/
structure SummaryRow (α : Type) where
  mouse : String
  view : String
  pos : String
  ribeyes : Option α
  microglia : Option α
  engulfment : Option α
deriving DecidableEq

/-- The `(mouse, view, pos)` key of the summary `OrderedDict`. -/
abbrev RowKey := String × String × String

/-- One merge unit as `build_summary` sees it: the folder's base name
and, in natural order, the folder's eligible CSV file names, each with
the optional value `first_float_in_first_column` (external I/O, spec
section 6) yields for it. -/
structure MergeUnit (α : Type) where
  folderName : String
  csvs : List (String × Option α)

/-- Association-list lookup (`key in summary` / `summary[key]`). -/
def findRow {α : Type} (summary : List (RowKey × SummaryRow α)) (k : RowKey) :
    Option (SummaryRow α) :=
  match summary with
  | [] => none
  | (k2, r) :: rest => if k2 = k then some r else findRow rest k

/-- `summary[key]["Ribeyes/μm"] = val` / `... ["microglia/μm"] = val`:
write the value into the field selected by `kind`, leaving every other
field unchanged (no branch fires for any other kind, as in the source's
`if kind == "ribeyes" ... elif kind == "microglia" ...`). -/
def setKindVal {α : Type} (r : SummaryRow α) (kind : String) (val : Option α) :
    SummaryRow α :=
  if kind = "ribeyes" then { r with ribeyes := val }
  else if kind = "microglia" then { r with microglia := val }
  else r

/-- Update the record stored at key `k` in place (an `OrderedDict`
value update keeps insertion order). -/
def writeVal {α : Type} (summary : List (RowKey × SummaryRow α)) (k : RowKey)
    (kind : String) (val : Option α) : List (RowKey × SummaryRow α) :=
  summary.map (fun e => if e.1 = k then (e.1, setKindVal e.2 kind val) else e)

/-- The fresh record created when a key is first seen: identity fields
from the key, all value fields `None`. -/
def emptyRow {α : Type} (m v p : String) : SummaryRow α :=
  ⟨m, v, p, none, none, none⟩

/-- Python substring test `needle in hay` (prefix at some position). -/
def beginsWith : List Char → List Char → Bool
  | [], _ => true
  | _ :: _, [] => false
  | p :: ps, c :: cs => p = c && beginsWith ps cs

/-- Python `needle in hay` for strings. -/
def containsSeg (needle : List Char) (hay : List Char) : Bool :=
  match hay with
  | [] => needle.isEmpty
  | _ :: rest => beginsWith needle hay || containsSeg needle rest

/-- The kind fallback from `build_summary`: sniff the lower-cased file
name, `"ribeyes"` first, then `"microglia"`, else no kind (skip). -/
def sniffKind (csvName : String) : Option String :=
  let lower := toLowerStr csvName.data
  if containsSeg ("ribeyes".data) lower then some ("ribeyes")
  else if containsSeg ("microglia".data) lower then some ("microglia")
  else none

/-- The body of `build_summary`'s inner loop for one CSV file: decide
`(mouse, view, pos)` and `kind` with folder-first precedence (`fixed`),
fall back to name sniffing when the parse yields no truthy kind, skip
the file when no key or no kind can be resolved, else create the row if
the key is new and write the value into the resolved marker field. -/
def processFile {α : Type} (summary : List (RowKey × SummaryRow α))
    (fixed : Option RowKey) (csvName : String) (val : Option α) :
    List (RowKey × SummaryRow α) :=
  let step1 : Option (RowKey × Option String) :=
    match fixed with
    | some mvp =>
      match parse_from_name csvName with
      | some q => some (mvp, some q.2.2.2)
      | none => some (mvp, none)
    | none =>
      match parse_from_name csvName with
      | none => none
      | some (m, v, p, k) => some ((m, v, p), some k)
  match step1 with
  | none => summary
  | some (key, kind0) =>
    let kindRes : Option String :=
      match kind0 with
      | some k => if k.isEmpty then sniffKind csvName else some k
      | none => sniffKind csvName
    match kindRes with
    | none => summary
    | some kind =>
      let s1 := match findRow summary key with
        | some _ => summary
        | none => summary ++ [(key, emptyRow key.1 key.2.1 key.2.2)]
      writeVal s1 key kind val

/-- The body of `build_summary`'s outer loop for one directory: parse
the folder name, skip the unit when it has no CSV files, fix
`(mouse, view, pos)` from the folder when it parsed, then fold the
files in order. -/
def processUnit {α : Type} (summary : List (RowKey × SummaryRow α))
    (u : MergeUnit α) : List (RowKey × SummaryRow α) :=
  let folderParsed := parse_from_name u.folderName
  if u.csvs.isEmpty then summary
  else
    let fixed : Option RowKey :=
      match folderParsed with
      | some (m, v, p, _) => some (m, v, p)
      | none => none
    u.csvs.foldl (fun s fv => processFile s fixed fv.1 fv.2) summary

/-- `build_summary` over the discovered merge units (directories in
natural order with their CSV lists, as `list_all_dirs` /
`list_csv_in_dir` produce them): fold every unit into the initially
empty ordered summary. -/
def build_summary {α : Type} (units : List (MergeUnit α)) :
    List (RowKey × SummaryRow α) :=
  units.foldl processUnit []

/-! ## Lemmas about normalize_position -/

lemma consHead_ne_nil (c : Char) (ls : List (List Char)) :
    consHead c ls ≠ [] := by
  cases ls <;> simp [consHead]

lemma splitPlus_ne_nil (p : List Char) : splitPlus p ≠ [] := by
  cases p with
  | nil => simp [splitPlus]
  | cons c rest =>
    simp only [splitPlus]
    split
    · simp
    · exact consHead_ne_nil c (splitPlus rest)

lemma mem_of_mem_splitPlus {p seg : List Char} (h : seg ∈ splitPlus p)
    {c : Char} (hc : c ∈ seg) : c ∈ p := by
  induction p generalizing seg with
  | nil =>
    simp only [splitPlus, List.mem_singleton] at h
    subst h
    cases hc
  | cons x rest ih =>
    simp only [splitPlus] at h
    by_cases hx : x = '+'
    · rw [if_pos hx] at h
      rcases List.mem_cons.mp h with rfl | h
      · cases hc
      · exact List.mem_cons_of_mem x (ih h hc)
    · rw [if_neg hx] at h
      rcases hs : splitPlus rest with - | ⟨s, ss⟩
      · exact absurd hs (splitPlus_ne_nil rest)
      · rw [hs] at h
        simp only [consHead] at h
        rcases List.mem_cons.mp h with rfl | h
        · rcases List.mem_cons.mp hc with rfl | hc
          · exact List.mem_cons_self c rest
          · exact List.mem_cons_of_mem x
              (ih (hs ▸ List.mem_cons_self s ss) hc)
        · exact List.mem_cons_of_mem x
            (ih (hs ▸ List.mem_cons_of_mem s h) hc)

lemma mem_joinPlus : ∀ {xs : List (List Char)} {c : Char},
    c ∈ joinPlus xs → c = '+' ∨ ∃ x ∈ xs, c ∈ x
  | [], _, h => by cases h
  | [s], _, h => Or.inr ⟨s, List.mem_singleton_self s, h⟩
  | s :: t :: ts, c, h => by
    simp only [joinPlus] at h
    rcases List.mem_append.mp h with h | h
    · exact Or.inr ⟨s, List.mem_cons_self s (t :: ts), h⟩
    · rcases List.mem_cons.mp h with rfl | h
      · exact Or.inl rfl
      · rcases mem_joinPlus h with h2 | ⟨x, hx, hcx⟩
        · exact Or.inl h2
        · exact Or.inr ⟨x, List.mem_cons_of_mem s hx, hcx⟩

lemma mem_sortSegs {segs : List (List Char)} {x : List Char} :
    x ∈ sortSegs segs ↔ x ∈ segs :=
  (List.perm_insertionSort (fun a b => a ≤ b) segs).mem_iff

lemma space_not_mem_removeSpaces {cs : List Char} : ' ' ∉ removeSpaces cs := by
  intro h
  have := (List.mem_filter.mp h).2
  simp at this

lemma space_not_mem_normClean {cs : List Char} : ' ' ∉ normClean cs :=
  space_not_mem_removeSpaces

/-- Lowercase ASCII alphanumeric character: the segment alphabet of the
spec's position tags. -/
def isLowerAlnum (c : Char) : Bool :=
  decide (97 ≤ c.toNat ∧ c.toNat ≤ 122) || decide (48 ≤ c.toNat ∧ c.toNat ≤ 57)

/-- Hypothesis of the permutation-invariance claim: every segment is
nonempty and consists of lowercase alphanumeric characters. -/
def goodSegs (segs : List (List Char)) : Prop :=
  ∀ seg ∈ segs, seg ≠ [] ∧ ∀ c ∈ seg, isLowerAlnum c = true

lemma toLower_eq_self_of_lowerAlnum {c : Char} (h : isLowerAlnum c = true) :
    c.toLower = c := by
  simp only [isLowerAlnum, Bool.or_eq_true, decide_eq_true_eq] at h
  show (if c.toNat ≥ 65 ∧ c.toNat ≤ 90 then Char.ofNat (c.toNat + 32) else c) = c
  rw [if_neg (by omega)]

lemma lowerAlnum_not_space {c : Char} (h : isLowerAlnum c = true) :
    pyIsSpace c = false := by
  simp only [pyIsSpace, decide_eq_false_iff_not]
  rintro (rfl | rfl | rfl | rfl | rfl | rfl) <;> exact absurd h (by decide)

lemma lowerAlnum_ne_space {c : Char} (h : isLowerAlnum c = true) : c ≠ ' ' := by
  rintro rfl
  exact absurd h (by decide)

lemma joinPlus_chars {segs : List (List Char)} (hg : goodSegs segs) {c : Char}
    (hc : c ∈ joinPlus segs) : c = '+' ∨ isLowerAlnum c = true := by
  rcases mem_joinPlus hc with h | ⟨x, hx, hcx⟩
  · exact Or.inl h
  · exact Or.inr ((hg x hx).2 c hcx)

lemma dropWhile_space_eq_self {cs : List Char}
    (h : ∀ c ∈ cs, pyIsSpace c = false) : cs.dropWhile pyIsSpace = cs := by
  cases cs with
  | nil => rfl
  | cons c rest => simp [List.dropWhile_cons, h c (List.mem_cons_self c rest)]

lemma pyStrip_eq_self {cs : List Char} (h : ∀ c ∈ cs, pyIsSpace c = false) :
    pyStrip cs = cs := by
  unfold pyStrip
  rw [dropWhile_space_eq_self h,
    dropWhile_space_eq_self (fun c hc => h c (List.mem_reverse.mp hc))]
  exact List.reverse_reverse cs

lemma toLowerStr_eq_self : ∀ {cs : List Char},
    (∀ c ∈ cs, c.toLower = c) → toLowerStr cs = cs
  | [], _ => rfl
  | c :: rest, h => by
    simp only [toLowerStr, List.map_cons]
    rw [h c (List.mem_cons_self c rest)]
    exact congrArg (c :: ·)
      (toLowerStr_eq_self fun d hd => h d (List.mem_cons_of_mem c hd))

lemma removeSpaces_eq_self {cs : List Char} (h : ∀ c ∈ cs, c ≠ ' ') :
    removeSpaces cs = cs :=
  List.filter_eq_self.mpr (fun c hc => by simpa using h c hc)

lemma normClean_of_good {segs : List (List Char)} (hg : goodSegs segs) :
    normClean (joinPlus segs) = joinPlus segs := by
  unfold normClean
  rw [pyStrip_eq_self (fun c hc => by
        rcases joinPlus_chars hg hc with rfl | h
        · decide
        · exact lowerAlnum_not_space h),
      toLowerStr_eq_self (fun c hc => by
        rcases joinPlus_chars hg hc with rfl | h
        · decide
        · exact toLower_eq_self_of_lowerAlnum h),
      removeSpaces_eq_self (fun c hc => by
        rcases joinPlus_chars hg hc with rfl | h
        · decide
        · exact lowerAlnum_ne_space h)]

lemma splitPlus_no_plus : ∀ {s : List Char}, '+' ∉ s → splitPlus s = [s]
  | [], _ => rfl
  | c :: rest, h => by
    have hc : c ≠ '+' := fun e => h (e ▸ List.mem_cons_self c rest)
    simp only [splitPlus, if_neg hc,
      splitPlus_no_plus (fun hm => h (List.mem_cons_of_mem c hm)), consHead]

lemma splitPlus_append_plus : ∀ {s : List Char} (r : List Char), '+' ∉ s →
    splitPlus (s ++ '+' :: r) = s :: splitPlus r
  | [], r, _ => by simp [splitPlus]
  | c :: s, r, h => by
    have hc : c ≠ '+' := fun e => h (e ▸ List.mem_cons_self c s)
    have ih := splitPlus_append_plus r (fun hm => h (List.mem_cons_of_mem c hm))
    show (if c = '+' then [] :: splitPlus (s ++ '+' :: r)
          else consHead c (splitPlus (s ++ '+' :: r))) = (c :: s) :: splitPlus r
    rw [if_neg hc, ih]
    rfl

lemma splitPlus_joinPlus : ∀ {segs : List (List Char)}, segs ≠ [] →
    (∀ seg ∈ segs, '+' ∉ seg) → splitPlus (joinPlus segs) = segs
  | [], h, _ => absurd rfl h
  | [s], _, hp => splitPlus_no_plus (hp s (List.mem_singleton_self s))
  | s :: t :: ts, _, hp => by
    have h1 : '+' ∉ s := hp s (List.mem_cons_self s (t :: ts))
    show splitPlus (s ++ '+' :: joinPlus (t :: ts)) = s :: t :: ts
    rw [splitPlus_append_plus _ h1,
        splitPlus_joinPlus (by simp)
          (fun seg hm => hp seg (List.mem_cons_of_mem s hm))]

lemma plus_mem_joinPlus_two (s t : List Char) (ts : List (List Char)) :
    '+' ∈ joinPlus (s :: t :: ts) := by
  show '+' ∈ s ++ '+' :: joinPlus (t :: ts)
  exact List.mem_append.mpr (Or.inr (List.mem_cons_self _ _))

lemma good_no_plus {segs : List (List Char)} (hg : goodSegs segs) :
    ∀ seg ∈ segs, '+' ∉ seg := fun seg hm hp =>
  absurd ((hg seg hm).2 '+' hp) (by decide)

lemma normCore_joinPlus : ∀ {segs : List (List Char)}, goodSegs segs →
    normCore (joinPlus segs) = joinPlus (sortSegs segs)
  | [], _ => by decide
  | [s], hg => by
    have hplus : '+' ∉ s := good_no_plus hg s (List.mem_singleton_self s)
    show normCore s = joinPlus (sortSegs [s])
    have h2 : sortSegs [s] = [s] := rfl
    rw [h2]
    show normCore s = s
    unfold normCore
    rw [if_neg hplus]
  | s :: t :: ts, hg => by
    have hne : (s :: t :: ts) ≠ [] := by simp
    unfold normCore
    rw [if_pos (plus_mem_joinPlus_two s t ts),
        splitPlus_joinPlus hne (good_no_plus hg)]
    congr 2
    exact List.filter_eq_self.mpr (fun seg hm => by
      simpa using (hg seg hm).1)

lemma sortSegs_perm_eq {segs1 segs2 : List (List Char)}
    (h : segs1.Perm segs2) : sortSegs segs1 = sortSegs segs2 := by
  unfold sortSegs
  exact List.eq_of_perm_of_sorted
    (((List.perm_insertionSort _ segs1).trans h).trans
      (List.perm_insertionSort _ segs2).symm)
    (List.sorted_insertionSort _ segs1)
    (List.sorted_insertionSort _ segs2)

/-! ## Structure of successful NAME_RE matches

A successful match must contain the literal parenthesized
`(<kind>-<position>)` group somewhere in the input; the lemmas below
extract that decomposition from each layer of the matcher. -/

lemma orElse_none_thunk {α : Type} (f : Unit → Option α) :
    Option.orElse none f = f () := rfl

lemma orElse_some_thunk {α : Type} (a : α) (f : Unit → Option α) :
    Option.orElse (some a) f = some a := rfl

lemma stripCI_decomp : ∀ {pat cs r : List Char}, stripCI pat cs = some r →
    ∃ took, cs = took ++ r ∧ toLowerStr took = toLowerStr pat
  | [], cs, r, h => by
    have hr : cs = r := Option.some.inj h
    exact ⟨[], by rw [hr]; rfl, rfl⟩
  | p :: ps, [], r, h => by cases h
  | p :: ps, c :: cs, r, h => by
    simp only [stripCI] at h
    by_cases hc : c.toLower = p.toLower
    · rw [if_pos hc] at h
      obtain ⟨took, h1, h2⟩ := stripCI_decomp h
      refine ⟨c :: took, by rw [h1]; rfl, ?_⟩
      unfold toLowerStr at h2 ⊢
      simp only [List.map_cons]
      rw [hc, h2]
    · rw [if_neg hc] at h
      cases h

/-- The decomposition a successful `kindTry` imposes on its input. -/
lemma kindTry_decomp {pat rest k p : List Char}
    (h : kindTry pat rest = some (k, p)) :
    ∃ took r3, rest = took ++ '-' :: (p ++ ')' :: r3) ∧
      toLowerStr took = toLowerStr pat ∧ p ≠ [] ∧ ∀ c ∈ p, c ≠ ')' := by
  unfold kindTry at h
  cases hs : stripCI pat rest with
  | none => rw [hs] at h; cases h
  | some r1 =>
    rw [hs] at h
    simp only [] at h
    obtain ⟨took, hr, htl⟩ := stripCI_decomp hs
    cases r1 with
    | nil => cases h
    | cons c r2 =>
      simp only [] at h
      by_cases hc : c = '-'
      · rw [if_pos hc] at h
        subst hc
        by_cases hpos : (r2.takeWhile (fun x => !(decide (x = ')')))).isEmpty
        · rw [if_pos hpos] at h; cases h
        · rw [if_neg hpos] at h
          cases hdw : r2.dropWhile (fun x => !(decide (x = ')'))) with
          | nil => rw [hdw] at h; cases h
          | cons d r3 =>
            rw [hdw] at h
            simp only [] at h
            by_cases hd : d = ')'
            · rw [if_pos hd] at h
              subst hd
              cases hm : matchAfterRParen r3 with
              | false => rw [hm] at h; simp at h
              | true =>
                rw [hm] at h
                simp only [if_true] at h
                obtain ⟨-, hp⟩ := Prod.mk.injEq .. ▸ Option.some.inj h
                refine ⟨took, r3, ?_, htl, ?_, ?_⟩
                · have := List.takeWhile_append_dropWhile
                    (fun x => !(decide (x = ')'))) r2
                  rw [hdw] at this
                  rw [hr, ← hp, this]
                · intro he
                  rw [← hp] at he
                  exact hpos (by rw [he]; rfl)
                · intro c hcp
                  rw [← hp] at hcp
                  have := List.mem_takeWhile_imp hcp
                  simpa using this
            · rw [if_neg hd] at h; cases h
      · rw [if_neg hc] at h; cases h

/-- The decomposition a successful `matchGroup` imposes on its input. -/
lemma matchGroup_decomp {cs k p : List Char}
    (h : matchGroup cs = some (k, p)) :
    ∃ took r3, cs = '(' :: (took ++ '-' :: (p ++ ')' :: r3)) ∧
      (toLowerStr took = ("microglia".data) ∨
       toLowerStr took = ("ribeyes".data)) ∧
      p ≠ [] ∧ ∀ c ∈ p, c ≠ ')' := by
  cases cs with
  | nil => cases h
  | cons c rest =>
    unfold matchGroup at h
    simp only [] at h
    by_cases hc : c = '('
    · rw [if_pos hc] at h
      subst hc
      cases hm : kindTry ("microglia".data) rest with
      | some kp =>
        rw [hm, orElse_some_thunk] at h
        obtain rfl : kp = (k, p) := Option.some.inj h
        obtain ⟨took, r3, h1, h2, h3, h4⟩ := kindTry_decomp hm
        exact ⟨took, r3, by rw [h1], Or.inl (h2.trans (by decide)), h3, h4⟩
      | none =>
        rw [hm, orElse_none_thunk] at h
        obtain ⟨took, r3, h1, h2, h3, h4⟩ := kindTry_decomp h
        exact ⟨took, r3, by rw [h1], Or.inr (h2.trans (by decide)), h3, h4⟩
    · rw [if_neg hc] at h
      cases h

lemma tryViewNum_group {n : Nat} {cs : List Char}
    {res : Option (List Char) × List Char × List Char}
    (h : tryViewNum n cs = some res) :
    ∃ cs2, cs2 <:+ cs ∧ ∃ kp, matchGroup cs2 = some kp := by
  unfold tryViewNum at h
  cases he : exactDigits n cs with
  | none => rw [he] at h; cases h
  | some dr =>
    rw [he] at h
    simp only [] at h
    cases hg : matchGroup dr.2 with
    | none => rw [hg] at h; cases h
    | some kp =>
      refine ⟨dr.2, ?_, kp, hg⟩
      unfold exactDigits at he
      by_cases hcond : (cs.take n).length = n ∧ (cs.take n).all Char.isDigit = true
      · rw [if_pos hcond] at he
        have : dr.2 = cs.drop n := by rw [← Option.some.inj he]
        rw [this]
        exact ⟨cs.take n, List.take_append_drop n cs⟩
      · rw [if_neg hcond] at he
        cases he

lemma tryViews_group {r : List Char}
    {res : Option (List Char) × List Char × List Char}
    (h : tryViews r = some res) :
    ∃ cs2, cs2 <:+ r ∧ ∃ kp, matchGroup cs2 = some kp := by
  unfold tryViews at h
  cases h6 : tryViewNum 6 r with
  | some v => exact tryViewNum_group h6
  | none =>
    rw [h6, orElse_none_thunk] at h
    cases h5 : tryViewNum 5 r with
    | some v => exact tryViewNum_group h5
    | none =>
      rw [h5, orElse_none_thunk] at h
      cases h4 : tryViewNum 4 r with
      | some v => exact tryViewNum_group h4
      | none =>
        rw [h4, orElse_none_thunk] at h
        exact tryViewNum_group h

lemma groupToRes_group {cs : List Char}
    {res : Option (List Char) × List Char × List Char}
    (h : groupToRes cs = some res) : ∃ kp, matchGroup cs = some kp := by
  unfold groupToRes at h
  cases hg : matchGroup cs with
  | none => rw [hg] at h; cases h
  | some kp => exact ⟨kp, rfl⟩

lemma tryAt_group {cs : List Char}
    {res : Option (List Char) × List Char × List Char}
    (h : tryAt cs = some res) :
    ∃ cs2, cs2 <:+ cs ∧ ∃ kp, matchGroup cs2 = some kp := by
  unfold tryAt at h
  cases hv : tryAtView cs with
  | some v =>
    cases cs with
    | nil => cases hv
    | cons c r =>
      unfold tryAtView at hv
      simp only [] at hv
      by_cases hc : c = '_'
      · rw [if_pos hc] at hv
        obtain ⟨cs2, hsuf, hkp⟩ := tryViews_group hv
        exact ⟨cs2, hsuf.trans (List.suffix_cons c r), hkp⟩
      · rw [if_neg hc] at hv
        cases hv
  | none =>
    rw [hv, orElse_none_thunk] at h
    obtain ⟨kp, hg⟩ := groupToRes_group h
    exact ⟨cs, List.suffix_rfl, kp, hg⟩

lemma scanBody_suffix : ∀ {cs : List Char}
    {res : Option (List Char) × List Char × List Char},
    scanBody cs = some res → ∃ cs2, cs2 <:+ cs ∧ tryAt cs2 = some res
  | [], _, h => ⟨[], List.suffix_rfl, h⟩
  | c :: rest, res, h => by
    unfold scanBody at h
    cases ht : tryAt (c :: rest) with
    | some r2 =>
      rw [ht, orElse_some_thunk] at h
      exact ⟨c :: rest, List.suffix_rfl, ht.trans h⟩
    | none =>
      rw [ht, orElse_none_thunk] at h
      by_cases hc : c = '\n'
      · rw [if_pos hc] at h; cases h
      · rw [if_neg hc] at h
        obtain ⟨cs2, hsuf, h2⟩ := scanBody_suffix h
        exact ⟨cs2, hsuf.trans (List.suffix_cons c rest), h2⟩

/-- What it means for a raw name to contain the mandatory parenthesized
`(<kind>-<position>)` group of the grammar: a literal `(`, one of the
two kind words (case-insensitively), a `-`, a nonempty run of
non-`)` characters, and the closing `)`. -/
def hasKindPosGroup (cs : List Char) : Prop :=
  ∃ pre took p post, cs = pre ++ '(' :: (took ++ '-' :: (p ++ ')' :: post)) ∧
    (toLowerStr took = ("microglia".data) ∨
     toLowerStr took = ("ribeyes".data)) ∧
    p ≠ [] ∧ ∀ c ∈ p, c ≠ ')'

/-- A successful `NAME_RE` match exhibits the parenthesized group. -/
lemma nameReMatch_group {s : String}
    {res : List Char × Option (List Char) × List Char × List Char}
    (h : nameReMatch s = some res) : hasKindPosGroup s.data := by
  unfold nameReMatch at h
  cases hd : s.data with
  | nil => rw [hd] at h; cases h
  | cons c rest =>
    rw [hd] at h
    simp only [] at h
    by_cases hc : c.toLower = 'p'
    · rw [if_pos hc] at h
      by_cases hds : (rest.takeWhile Char.isDigit).isEmpty
      · rw [if_pos hds] at h; cases h
      · rw [if_neg hds] at h
        cases hdrop : rest.dropWhile Char.isDigit with
        | nil => rw [hdrop] at h; cases h
        | cons c2 body =>
          rw [hdrop] at h
          simp only [] at h
          by_cases hc2 : c2 = '-'
          · rw [if_pos hc2] at h
            cases hsb : scanBody body with
            | none => rw [hsb] at h; cases h
            | some vkp =>
              obtain ⟨cs2, hsuf, ht⟩ := scanBody_suffix hsb
              obtain ⟨cs3, hsuf3, kp, hg⟩ := tryAt_group ht
              obtain ⟨k0, p0⟩ := kp
              obtain ⟨took, r3, hdec, hkind, hpne, hpnc⟩ :=
                matchGroup_decomp hg
              obtain ⟨u1, hu1⟩ := hsuf
              obtain ⟨u2, hu2⟩ := hsuf3
              have hrest : rest = rest.takeWhile Char.isDigit ++ (c2 :: body) := by
                rw [← hdrop, List.takeWhile_append_dropWhile]
              set tw := rest.takeWhile Char.isDigit with htw
              have hbody : body =
                  u1 ++ (u2 ++ ('(' :: (took ++ '-' :: (p0 ++ ')' :: r3)))) := by
                rw [← hdec, hu2, hu1]
              rw [hbody] at hrest
              refine ⟨c :: tw ++ c2 :: (u1 ++ u2),
                took, p0, r3, ?_, hkind, hpne, hpnc⟩
              rw [hrest]
              simp
          · rw [if_neg hc2] at h; cases h
    · rw [if_neg hc] at h
      cases h

/-! ## The key-record coherence invariant -/

/-- Every record stored in the summary has identity fields equal to the
three components of its key. -/
def coherent {α : Type} (summary : List (RowKey × SummaryRow α)) : Prop :=
  ∀ e ∈ summary, e.2.mouse = e.1.1 ∧ e.2.view = e.1.2.1 ∧ e.2.pos = e.1.2.2

lemma setKindVal_fields {α : Type} (r : SummaryRow α) (kind : String)
    (val : Option α) :
    (setKindVal r kind val).mouse = r.mouse ∧
    (setKindVal r kind val).view = r.view ∧
    (setKindVal r kind val).pos = r.pos := by
  unfold setKindVal
  by_cases h1 : kind = "ribeyes"
  · rw [if_pos h1]
    exact ⟨rfl, rfl, rfl⟩
  · rw [if_neg h1]
    by_cases h2 : kind = "microglia"
    · rw [if_pos h2]
      exact ⟨rfl, rfl, rfl⟩
    · rw [if_neg h2]
      exact ⟨rfl, rfl, rfl⟩

lemma coherent_writeVal {α : Type} {s : List (RowKey × SummaryRow α)}
    (hs : coherent s) (k : RowKey) (kind : String) (val : Option α) :
    coherent (writeVal s k kind val) := by
  intro e he
  unfold writeVal at he
  rcases List.mem_map.mp he with ⟨e0, he0, heq⟩
  by_cases h : e0.1 = k
  · rw [if_pos h] at heq
    subst heq
    obtain ⟨h1, h2, h3⟩ := setKindVal_fields e0.2 kind val
    obtain ⟨g1, g2, g3⟩ := hs e0 he0
    exact ⟨h1.trans g1, h2.trans g2, h3.trans g3⟩
  · rw [if_neg h] at heq
    subst heq
    exact hs e0 he0

lemma coherent_append_new {α : Type} {s : List (RowKey × SummaryRow α)}
    (hs : coherent s) (key : RowKey) :
    coherent (s ++ [(key, emptyRow key.1 key.2.1 key.2.2)]) := by
  intro e he
  rcases List.mem_append.mp he with h | h
  · exact hs e h
  · rcases List.mem_singleton.mp h with rfl
    exact ⟨rfl, rfl, rfl⟩

lemma coherent_step {α : Type} {s : List (RowKey × SummaryRow α)}
    (hs : coherent s) (kindRes : Option String) (key : RowKey)
    (val : Option α) :
    coherent (match kindRes with
      | none => s
      | some kind =>
        writeVal (match findRow s key with
          | some _ => s
          | none => s ++ [(key, emptyRow key.1 key.2.1 key.2.2)])
          key kind val) := by
  cases kindRes with
  | none => exact hs
  | some kind =>
    apply coherent_writeVal
    cases findRow s key
    · exact coherent_append_new hs key
    · exact hs

lemma coherent_processFile {α : Type} (s : List (RowKey × SummaryRow α))
    (fixed : Option RowKey) (name : String) (v : Option α)
    (hs : coherent s) : coherent (processFile s fixed name v) := by
  unfold processFile
  cases fixed with
  | some mvp =>
    cases parse_from_name name with
    | some q => exact coherent_step hs _ _ _
    | none => exact coherent_step hs _ _ _
  | none =>
    cases parse_from_name name with
    | none => exact hs
    | some q => exact coherent_step hs _ _ _

lemma coherent_foldl_files {α : Type} (files : List (String × Option α))
    (fixed : Option RowKey) :
    ∀ s : List (RowKey × SummaryRow α), coherent s →
      coherent (files.foldl (fun s fv => processFile s fixed fv.1 fv.2) s) := by
  induction files with
  | nil => exact fun s hs => hs
  | cons f fs ih =>
    exact fun s hs => ih _ (coherent_processFile s fixed f.1 f.2 hs)

lemma coherent_processUnit {α : Type} (u : MergeUnit α) :
    ∀ s, coherent s → coherent (processUnit s u) := by
  intro s hs
  unfold processUnit
  split
  · exact hs
  · exact coherent_foldl_files u.csvs _ s hs

lemma coherent_foldl_units {α : Type} (units : List (MergeUnit α)) :
    ∀ s, coherent s → coherent (units.foldl processUnit s) := by
  induction units with
  | nil => exact fun s hs => hs
  | cons u us ih => exact fun s hs => ih _ (coherent_processUnit u s hs)

/-! ## Small evaluation lemmas shared by the claim proofs -/

lemma parse_folder_p9 :
    parse_from_name ("p9-x(ribeyes-aa)_") = some ("p9", "/", "aa", "ribeyes") := by
  decide

/-! ## Claim theorems -/

/-- C4 (confirmed): the name `p3-xyz_000123(microglia-opl+ipl)_Detailed.csv`
matches the grammar and parses to subject `p3`, view `000123`, position
`ipl+opl` (normalized), kind `microglia`. -/
theorem C4_name_round_trip :
    parse_from_name ("p3-xyz_000123(microglia-opl+ipl)_Detailed.csv") =
      some ("p3", "000123", "ipl+opl", "microglia") := by
  decide

/-- C5 counterexample: the claim's own example names, which carry no
trailing `Detailed`/`Statistics` tag and no underscore after the
parenthesized group, do NOT match: the grammar's `_` before the optional
tag word is mandatory (`\)_(?P<tag>...)?`), so `parse_from_name` returns
`none` on both. -/
theorem C5_counterexample :
    parse_from_name ("p3-xyz(microglia-opl)") = none ∧
    parse_from_name ("p3-xyz(microglia-opl).csv") = none := by
  decide

/-- C5 (corrected): the trailing tag word is optional, but the
underscore that precedes it is mandatory: a name whose parenthesized
group is followed by `_` and no tag word still parses, with or without
the `.csv` suffix. -/
theorem C5_tag_word_optional :
    parse_from_name ("p3-xyz(microglia-opl)_") =
      some ("p3", "/", "opl", "microglia") ∧
    parse_from_name ("p3-xyz(microglia-opl)_.csv") =
      some ("p3", "/", "opl", "microglia") := by
  decide

/-- C1 counterexample: the claim's folder name `p5-foo(ribeyes-gcl)`
does not match `NAME_RE` (the mandatory `_` after `)` is missing), the
contained file `unrelated_0007(microglia-gcl)_Statistics.csv` does not
match either (it does not start with `p<digits>`), so the unit produces
no row at all — in particular no row keyed `(p5, /, gcl)`. -/
theorem C1_counterexample :
    build_summary [⟨"p5-foo(ribeyes-gcl)",
        [("unrelated_0007(microglia-gcl)_Statistics.csv", some (1 : ℚ))]⟩] =
      [] ∧
    findRow (build_summary [⟨"p5-foo(ribeyes-gcl)",
        [("unrelated_0007(microglia-gcl)_Statistics.csv", some (1 : ℚ))]⟩])
        ("p5", "/", "gcl") = none := by
  constructor
  · rfl
  · rfl

/-- C1 (corrected): with the mandatory underscore present in the folder
name — `p5-foo(ribeyes-gcl)_` — the folder matches the parser, its
`(subject, view, position) = (p5, /, gcl)` is fixed for the unit's
files, and the file `unrelated_0007(microglia-gcl)_Statistics.csv`
(itself unparseable, sniffed as microglia) lands in the single row keyed
`(p5, /, gcl)` with view `/` taken from the folder; the file-derived
view is never used. -/
theorem C1_folder_precedence :
    build_summary [⟨"p5-foo(ribeyes-gcl)_",
        [("unrelated_0007(microglia-gcl)_Statistics.csv", some (1 : ℚ))]⟩] =
      [(("p5", "/", "gcl"), ⟨"p5", "/", "gcl", none, some 1, none⟩)] := by
  rfl

/-- C2 (confirmed): a run in which exactly two files resolve to the
identical key `(p1, /, opl)`, one classified ribeyes (marker a) with
value 2.5 and one classified microglia (marker b) with value 1.25,
produces a summary with exactly one row for that key:
`{subject p1, view /, position opl, ribeyes 2.5, microglia 1.25}`. -/
theorem C2_merge_two_markers :
    build_summary [⟨"unitA",
        [("p1-a(ribeyes-opl)_Statistics.csv", some (2.5 : ℚ)),
         ("p1-b(microglia-opl)_Statistics.csv", some (1.25 : ℚ))]⟩] =
      [(("p1", "/", "opl"),
        ⟨"p1", "/", "opl", some (2.5 : ℚ), some (1.25 : ℚ), none⟩)] := by
  rfl

/-- C3 (confirmed): for every two position tags whose cleaned form
(strip, lower-case, remove spaces — i.e. allowing case and whitespace
variation) is a `+`-join of two permutations of the same multiset of
nonempty lowercase alphanumeric segments, `normalize_position` returns
the identical string, namely the segments sorted lexicographically
ascending joined by `+`; in particular
`normalize("opl+ipl") = normalize("ipl+opl") = "ipl+opl"`. -/
theorem C3_position_perm_invariance :
    (∀ (t1 t2 : String) (segs1 segs2 : List (List Char)),
        goodSegs segs1 → segs1.Perm segs2 →
        normClean t1.data = joinPlus segs1 →
        normClean t2.data = joinPlus segs2 →
        normalize_position t1 = normalize_position t2 ∧
        normalize_position t1 = String.mk (joinPlus (sortSegs segs1))) ∧
    normalize_position ("opl+ipl") = "ipl+opl" ∧
    normalize_position ("ipl+opl") = "ipl+opl" := by
  refine ⟨fun t1 t2 segs1 segs2 hg hperm h1 h2 => ?_, by decide, by decide⟩
  have hg2 : goodSegs segs2 := fun seg hm => hg seg (hperm.mem_iff.mpr hm)
  have e1 : normalize_position t1 = String.mk (joinPlus (sortSegs segs1)) := by
    unfold normalize_position
    rw [h1, normCore_joinPlus hg]
  have e2 : normalize_position t2 = String.mk (joinPlus (sortSegs segs2)) := by
    unfold normalize_position
    rw [h2, normCore_joinPlus hg2]
  refine ⟨?_, e1⟩
  rw [e1, e2, sortSegs_perm_eq hperm]

/-- C3 witness: the universally quantified part of
`C3_position_perm_invariance` instantiated at `opl+ipl` / `ipl+opl`
with segment lists `[opl, ipl]` and `[ipl, opl]`. -/
theorem C3_position_perm_invariance_witness :
    normalize_position ("opl+ipl") = normalize_position ("ipl+opl") ∧
    normalize_position ("opl+ipl") =
      String.mk (joinPlus (sortSegs [("opl".data), ("ipl".data)])) :=
  C3_position_perm_invariance.1 ("opl+ipl") ("ipl+opl")
    [("opl".data), ("ipl".data)] [("ipl".data), ("opl".data)]
    (by unfold goodSegs; decide) (by decide) (by decide) (by decide)

/-- C7 (confirmed): any string that lacks the mandatory parenthesized
kind-position group — a literal `(`, one of the two kind words
(case-insensitively), `-`, a nonempty run of non-`)` characters, `)` —
fails the anchored grammar: `parse_from_name` returns `none`; in
particular on `p3-xyz_Detailed.csv`. -/
theorem C7_reject_missing_group :
    (∀ s : String, ¬ hasKindPosGroup s.data → parse_from_name s = none) ∧
    parse_from_name ("p3-xyz_Detailed.csv") = none := by
  constructor
  · intro s hno
    unfold parse_from_name
    cases hm : nameReMatch s with
    | none => rfl
    | some res => exact absurd (nameReMatch_group hm) hno
  · decide

/-- C7 witness: `C7_reject_missing_group` applied to the concrete name
`p3-xyz_Detailed.csv`, whose character list contains no `(` and hence
cannot contain the group. -/
theorem C7_reject_missing_group_witness :
    parse_from_name ("p3-xyz_Detailed.csv") = none :=
  C7_reject_missing_group.1 ("p3-xyz_Detailed.csv") (by
    rintro ⟨pre, took, p, post, hEq, -, -, -⟩
    have h1 : '(' ∈ ("p3-xyz_Detailed.csv" : String).data := by
      rw [hEq]
      simp
    exact absurd h1 (by decide))

/-- C8 counterexample: `normalize_position` only removes the space
character `' '` internally (`.replace(" ", "")`), not all whitespace: a
tab between two letters survives, so the returned string can contain a
whitespace character — against the claim that the result contains no
whitespace characters of any kind. -/
theorem C8_counterexample :
    pyIsSpace '\t' = true ∧
    normalize_position ("a\tb") = "a\tb" ∧
    '\t' ∈ (normalize_position ("a\tb")).data := by
  decide

/-- C8 (corrected): `normalize_position` strips leading and trailing
whitespace, removes all internal space characters `' '` (but not other
internal whitespace such as tabs) and lower-cases, so the returned
string never contains a space character; on the spec's example,
`normalize(" OPL + IPL ") = "ipl+opl"`. -/
theorem C8_space_free :
    (∀ s : String, ' ' ∉ (normalize_position s).data) ∧
    normalize_position (" OPL + IPL ") = "ipl+opl" := by
  constructor
  · intro s hmem
    have hmem2 : ' ' ∈ normCore (normClean s.data) := hmem
    unfold normCore at hmem2
    by_cases hp : '+' ∈ normClean s.data
    · rw [if_pos hp] at hmem2
      rcases mem_joinPlus hmem2 with h | ⟨x, hx, hcx⟩
      · exact absurd h (by decide)
      · have hx2 : x ∈ (splitPlus (normClean s.data)).filter
            (fun s => !(s.isEmpty)) := mem_sortSegs.mp hx
        have hx3 := List.mem_of_mem_filter hx2
        exact space_not_mem_normClean (mem_of_mem_splitPlus hx3 hcx)
    · rw [if_neg hp] at hmem2
      exact space_not_mem_normClean hmem2
  · decide

/-- C8 witness: the universal part of `C8_space_free` at a concrete
input. -/
theorem C8_space_free_witness :
    ' ' ∉ (normalize_position ("a b+c")).data :=
  C8_space_free.1 ("a b+c")

/-- C9 (confirmed): `natural_key` splits a name on digit runs (digit
runs become numbers, text runs are lower-cased), digit runs compare
numerically — so the key of `img2` is below the key of `img10` — text
runs compare case-insensitively, and the natural sort of
`["img2", "img10", "img1"]` is `["img1", "img2", "img10"]`. -/
theorem C9_natural_ordering :
    sortByNaturalKey ["img2", "img10", "img1"] = ["img1", "img2", "img10"] ∧
    natural_key ("img10") =
      [NatTok.str ("img".data), NatTok.num 10, NatTok.str []] ∧
    natural_key ("img2") =
      [NatTok.str ("img".data), NatTok.num 2, NatTok.str []] ∧
    keyLt (natural_key ("img1")) (natural_key ("img2")) = true ∧
    keyLt (natural_key ("img2")) (natural_key ("img10")) = true ∧
    natural_key ("IMG2") = natural_key ("img2") := by
  decide

/-- C10 (confirmed): key-record coherence. Writing a marker value never
changes the three identity fields of a record (`setKindVal` preserves
them); the per-file aggregation step preserves the invariant that every
key maps to a record whose subject/view/position fields are exactly the
key's components (so it holds at every point during aggregation); and
the final summary of every run satisfies the invariant. -/
theorem C10_key_record_coherence :
    (∀ (α : Type) (r : SummaryRow α) (kind : String) (val : Option α),
        (setKindVal r kind val).mouse = r.mouse ∧
        (setKindVal r kind val).view = r.view ∧
        (setKindVal r kind val).pos = r.pos) ∧
    (∀ (α : Type) (s : List (RowKey × SummaryRow α)) (fixed : Option RowKey)
        (name : String) (v : Option α),
        coherent s → coherent (processFile s fixed name v)) ∧
    (∀ (α : Type) (units : List (MergeUnit α)),
        coherent (build_summary units)) :=
  ⟨fun _ r kind val => setKindVal_fields r kind val,
   fun _ s fixed name v hs => coherent_processFile s fixed name v hs,
   fun _ units => coherent_foldl_units units [] (fun _ he => by cases he)⟩

/-- C10 witness: the step-preservation part of
`C10_key_record_coherence` applied to the empty summary and one file. -/
theorem C10_key_record_coherence_witness :
    coherent (processFile ([] : List (RowKey × SummaryRow ℚ)) none
      ("x.csv") none) :=
  C10_key_record_coherence.2.1 ℚ [] none ("x.csv") none
    (fun _ he => by cases he)

/-- C6 counterexample: a file that fails the parser and whose name
contains BOTH marker literals is classified ribeyes (marker a), not
microglia (marker b) as the claim states: the fallback checks
`"ribeyes"` first. The produced row carries the value in the ribeyes
field and nothing in the microglia field. -/
theorem C6_counterexample :
    build_summary [⟨"p9-x(ribeyes-aa)_",
        [("zz_ribeyes_microglia.csv", some (7 : ℚ))]⟩] =
      [(("p9", "/", "aa"), ⟨"p9", "/", "aa", some 7, none, none⟩)] := by
  rfl

/-- C6 (corrected): for a file whose name parsing yields no explicit
kind (here: any unparseable file inside the folder-matched unit
`p9-x(ribeyes-aa)_`), classification falls back to substring sniffing
of the lower-cased filename in which the marker-a literal `"ribeyes"`
is checked FIRST — a filename containing it is classified marker a even
if it also contains `"microglia"` — otherwise a filename containing
`"microglia"` is classified marker b, and a filename containing neither
is skipped (no row is produced). -/
theorem C6_sniff_order (name : String) (v : ℚ)
    (hparse : parse_from_name name = none) :
    (containsSeg ("ribeyes".data) (toLowerStr name.data) = true →
      build_summary [⟨"p9-x(ribeyes-aa)_", [(name, some v)]⟩] =
        [(("p9", "/", "aa"), ⟨"p9", "/", "aa", some v, none, none⟩)]) ∧
    (containsSeg ("ribeyes".data) (toLowerStr name.data) = false →
     containsSeg ("microglia".data) (toLowerStr name.data) = true →
      build_summary [⟨"p9-x(ribeyes-aa)_", [(name, some v)]⟩] =
        [(("p9", "/", "aa"), ⟨"p9", "/", "aa", none, some v, none⟩)]) ∧
    (containsSeg ("ribeyes".data) (toLowerStr name.data) = false →
     containsSeg ("microglia".data) (toLowerStr name.data) = false →
      build_summary [⟨"p9-x(ribeyes-aa)_", [(name, some v)]⟩] = []) := by
  refine ⟨fun hr => ?_, fun hr hm => ?_, fun hr hm => ?_⟩
  · simp only [build_summary, processUnit, parse_folder_p9, List.foldl,
      List.isEmpty_cons, Bool.false_eq_true, if_false, processFile, hparse,
      sniffKind, hr, if_true, findRow, writeVal, emptyRow, setKindVal,
      List.map]
  · simp only [build_summary, processUnit, parse_folder_p9, List.foldl,
      List.isEmpty_cons, Bool.false_eq_true, if_false, processFile, hparse,
      sniffKind, hr, hm, if_true, findRow, writeVal, emptyRow, setKindVal,
      List.map]
    rfl
  · simp only [build_summary, processUnit, parse_folder_p9, List.foldl,
      List.isEmpty_cons, Bool.false_eq_true, if_false, processFile, hparse,
      sniffKind, hr, hm, if_true, findRow, writeVal, emptyRow, setKindVal,
      List.map]

/-- C6 witness: the three branches of `C6_sniff_order` at concrete
inputs. -/
theorem C6_sniff_order_witness :
    build_summary [⟨"p9-x(ribeyes-aa)_",
        [("zz_both_ribeyes_microglia.csv", some (7 : ℚ))]⟩] =
      [(("p9", "/", "aa"), ⟨"p9", "/", "aa", some 7, none, none⟩)] ∧
    build_summary [⟨"p9-x(ribeyes-aa)_",
        [("zz_microglia_only.csv", some (3 : ℚ))]⟩] =
      [(("p9", "/", "aa"), ⟨"p9", "/", "aa", none, some 3, none⟩)] ∧
    build_summary [⟨"p9-x(ribeyes-aa)_",
        [("zz_neither.csv", some (4 : ℚ))]⟩] = [] :=
  ⟨(C6_sniff_order ("zz_both_ribeyes_microglia.csv") 7 (by decide)).1 (by decide),
   (C6_sniff_order ("zz_microglia_only.csv") 3 (by decide)).2.1 (by decide) (by decide),
   (C6_sniff_order ("zz_neither.csv") 4 (by decide)).2.2 (by decide) (by decide)⟩

end ExcelMerger
